import Mathlib

/-!
Verification of the Pareto-front extraction routine `identify_pareto` from the
notebook. The score table is embedded as a list of rows of integers (the worked
example uses only integer scores); `scores[j] >= scores[i]` / `scores[j] > scores[i]`
are elementwise comparisons over rows of equal length, embedded by zipping the
two rows. The inner `for j` loop with its early `break` is embedded as the
recursion `dominatedBy`, and `population_ids[pareto_front]` as a filter over
`List.range` of the population size.
-/

namespace ParetoFront

/-- Embeds `all(scores[j] >= scores[i]) and any(scores[j] > scores[i])` where
`a` stands for `scores[j]` and `b` for `scores[i]`: row `a` dominates row `b`. -/
def dominates (a b : List Int) : Bool :=
  ((a.zip b).all fun p => decide (p.2 ≤ p.1)) && ((a.zip b).any fun p => decide (p.2 < p.1))

/-- Embeds the inner `for j` loop of `identify_pareto` for a fixed row
`si = scores[i]`: walk the rows in order and stop at the first row that
dominates `si`; the result is the final value of `not pareto_front[i]`. -/
def dominatedBy (si : List Int) : List (List Int) → Bool
  | [] => false
  | s :: rest => if dominates s si then true else dominatedBy si rest

/-- Embeds `identify_pareto`: every index starts on the front, index `i` is
removed when some row dominates row `i`, and `population_ids[pareto_front]`
lists the surviving indices in increasing order. -/
def identify_pareto (scores : List (List Int)) : List Nat :=
  (List.range scores.length).filter fun i => ! dominatedBy (scores.getD i []) scores

/-- Modelled from the spec: the exhaustive reference algorithm of §4.1, which
checks all ordered pairs with `i ≠ j` and records every dominance, with no
short-circuit and no self-comparison. -/
def identify_pareto_ref (scores : List (List Int)) : List Nat :=
  (List.range scores.length).filter fun i =>
    (List.range scores.length).all fun j =>
      (j == i) || ! dominates (scores.getD j []) (scores.getD i [])

/-- The 30-candidate worked example from the notebook. -/
def exampleScores : List (List Int) :=
  [[97, 23], [55, 77], [34, 76], [80, 60], [99, 4], [81, 5], [5, 81], [30, 79],
   [15, 80], [70, 65], [90, 40], [40, 30], [30, 40], [20, 60], [60, 50], [20, 20],
   [30, 1], [60, 40], [70, 25], [44, 62], [55, 55], [55, 10], [15, 45], [83, 22],
   [76, 46], [56, 32], [45, 55], [10, 70], [10, 30], [79, 50]]

lemma dominates_self (a : List Int) : dominates a a = false := by
  have h : (a.zip a).any (fun p => decide (p.2 < p.1)) = false := by
    induction a with
    | nil => rfl
    | cons x xs ih => simp [List.zip_cons_cons, ih]
  simp [dominates, h]

lemma dominatedBy_eq_any (si : List Int) (l : List (List Int)) :
    dominatedBy si l = l.any fun s => dominates s si := by
  induction l with
  | nil => rfl
  | cons s rest ih =>
    by_cases h : dominates s si = true
    · simp [dominatedBy, h]
    · simp [dominatedBy, h, ih]

lemma getD_mem (l : List (List Int)) (i : Nat) (hi : i < l.length) :
    l.getD i [] ∈ l := by
  rw [List.getD_eq_getElem l [] hi]
  exact List.getElem_mem hi

lemma mem_iff_getD (l : List (List Int)) (s : List Int) :
    s ∈ l ↔ ∃ j, j < l.length ∧ l.getD j [] = s := by
  constructor
  · intro hs
    rcases List.mem_iff_getElem.mp hs with ⟨j, hj, hval⟩
    exact ⟨j, hj, by rw [List.getD_eq_getElem l [] hj, hval]⟩
  · rintro ⟨j, hj, hval⟩
    rw [← hval]
    exact getD_mem l j hj

lemma allGe_iff (a : List Int) : ∀ b : List Int,
    ((a.zip b).all fun p => decide (p.2 ≤ p.1)) = true ↔
      ∀ k, k < min a.length b.length → b.getD k 0 ≤ a.getD k 0 := by
  induction a with
  | nil => intro b; simp
  | cons x xs ih =>
    intro b
    cases b with
    | nil => simp
    | cons y ys =>
      rw [List.zip_cons_cons, List.all_cons, Bool.and_eq_true, decide_eq_true_iff, ih ys]
      constructor
      · rintro ⟨h0, hrest⟩ k hk
        cases k with
        | zero => exact h0
        | succ k => exact hrest k (by simp at hk ⊢; omega)
      · intro h
        refine ⟨h 0 (by simp), fun k hk => h (k + 1) (by simp at hk ⊢; omega)⟩

lemma anyGt_iff (a : List Int) : ∀ b : List Int,
    ((a.zip b).any fun p => decide (p.2 < p.1)) = true ↔
      ∃ k, k < min a.length b.length ∧ b.getD k 0 < a.getD k 0 := by
  induction a with
  | nil => intro b; simp
  | cons x xs ih =>
    intro b
    cases b with
    | nil => simp
    | cons y ys =>
      rw [List.zip_cons_cons, List.any_cons, Bool.or_eq_true, decide_eq_true_iff, ih ys]
      constructor
      · rintro (h0 | ⟨k, hk, hlt⟩)
        · exact ⟨0, by simp, h0⟩
        · exact ⟨k + 1, by simp at hk ⊢; omega, hlt⟩
      · rintro ⟨k, hk, hlt⟩
        cases k with
        | zero => exact Or.inl hlt
        | succ k => exact Or.inr ⟨k, by simp at hk ⊢; omega, hlt⟩

/-- Index-level characterisation of the dominance test. -/
lemma dominates_iff (a b : List Int) :
    dominates a b = true ↔
      (∀ k, k < min a.length b.length → b.getD k 0 ≤ a.getD k 0) ∧
        ∃ k, k < min a.length b.length ∧ b.getD k 0 < a.getD k 0 := by
  rw [dominates, Bool.and_eq_true, allGe_iff, anyGt_iff]

lemma dominates_asymm (a b : List Int) (hab : dominates a b = true) :
    dominates b a = false := by
  cases h : dominates b a with
  | false => rfl
  | true =>
    exfalso
    obtain ⟨hall, k, hk, hlt⟩ := (dominates_iff a b).mp hab
    obtain ⟨hall2, _⟩ := (dominates_iff b a).mp h
    have hle : a.getD k 0 ≤ b.getD k 0 := hall2 k (by omega)
    omega

lemma dominates_trans (a b c : List Int) (hab : a.length = b.length)
    (hbc : b.length = c.length) (h1 : dominates a b = true) (h2 : dominates b c = true) :
    dominates a c = true := by
  obtain ⟨hall1, k1, hk1, hlt1⟩ := (dominates_iff a b).mp h1
  obtain ⟨hall2, _, _, _⟩ := (dominates_iff b c).mp h2
  refine (dominates_iff a c).mpr ⟨fun k hk => ?_, k1, by omega, ?_⟩
  · have hc : c.getD k 0 ≤ b.getD k 0 := hall2 k (by omega)
    have hb : b.getD k 0 ≤ a.getD k 0 := hall1 k (by omega)
    omega
  · have hc : c.getD k1 0 ≤ b.getD k1 0 := hall2 k1 (by omega)
    omega

lemma sum_le_of_allGe (a : List Int) : ∀ b : List Int, b.length = a.length →
    ((a.zip b).all fun p => decide (p.2 ≤ p.1)) = true → b.sum ≤ a.sum := by
  induction a with
  | nil =>
    intro b hlen _
    rw [List.length_nil] at hlen
    rw [List.eq_nil_of_length_eq_zero hlen]
  | cons x xs ih =>
    intro b hlen hall
    cases b with
    | nil => simp at hlen
    | cons y ys =>
      rw [List.zip_cons_cons, List.all_cons, Bool.and_eq_true, decide_eq_true_iff] at hall
      have htail := ih ys (by simpa using hlen) hall.2
      simp only [List.sum_cons]
      omega

lemma sum_lt_of_dominates (a : List Int) : ∀ b : List Int, b.length = a.length →
    dominates a b = true → b.sum < a.sum := by
  induction a with
  | nil =>
    intro b hlen hdom
    rw [List.length_nil] at hlen
    rw [List.eq_nil_of_length_eq_zero hlen] at hdom
    simp [dominates] at hdom
  | cons x xs ih =>
    intro b hlen hdom
    cases b with
    | nil => simp at hlen
    | cons y ys =>
      rw [dominates, List.zip_cons_cons, List.all_cons, List.any_cons, Bool.and_eq_true,
        Bool.and_eq_true, Bool.or_eq_true, decide_eq_true_iff, decide_eq_true_iff] at hdom
      obtain ⟨⟨hle, hall⟩, hany⟩ := hdom
      have hlen2 : ys.length = xs.length := by simpa using hlen
      simp only [List.sum_cons]
      cases hany with
      | inl hlt =>
        have := sum_le_of_allGe xs ys hlen2 hall
        omega
      | inr hany =>
        have := ih ys hlen2 (by rw [dominates, Bool.and_eq_true]; exact ⟨hall, hany⟩)
        omega

/-- Membership characterisation of the output of `identify_pareto`. -/
lemma mem_identify_pareto (scores : List (List Int)) (i : Nat) :
    i ∈ identify_pareto scores ↔
      i < scores.length ∧
        ∀ j, j < scores.length → dominates (scores.getD j []) (scores.getD i []) = false := by
  rw [identify_pareto, List.mem_filter, List.mem_range]
  constructor
  · rintro ⟨hi, hfilter⟩
    refine ⟨hi, fun j hj => ?_⟩
    rw [Bool.not_eq_true', dominatedBy_eq_any] at hfilter
    have hall := List.any_eq_false.mp hfilter
    exact Bool.eq_false_iff.mpr (hall (scores.getD j []) (getD_mem scores j hj))
  · rintro ⟨hi, hdom⟩
    refine ⟨hi, ?_⟩
    rw [Bool.not_eq_true', dominatedBy_eq_any]
    refine List.any_eq_false.mpr fun s hs => ?_
    rcases (mem_iff_getD scores s).mp hs with ⟨j, hj, hval⟩
    rw [← hval]
    exact Bool.eq_false_iff.mp (hdom j hj)

lemma dominatedBy_eq_false_iff (scores : List (List Int)) (si : List Int) :
    dominatedBy si scores = false ↔
      ∀ j, j < scores.length → dominates (scores.getD j []) si = false := by
  rw [dominatedBy_eq_any]
  constructor
  · intro h j hj
    exact Bool.eq_false_iff.mpr (List.any_eq_false.mp h _ (getD_mem scores j hj))
  · intro h
    refine List.any_eq_false.mpr fun s hs => ?_
    rcases (mem_iff_getD scores s).mp hs with ⟨j, hj, hval⟩
    rw [← hval]
    exact Bool.eq_false_iff.mp (h j hj)

/-- C1: for a non-empty rectangular score table, index `i` is in the output of
`identify_pareto` exactly when no other candidate `j` dominates candidate `i`
(componentwise `≥` everywhere and `>` somewhere). -/
theorem C1_mem_iff_not_dominated (scores : List (List Int)) (m : Nat)
    (hne : scores ≠ []) (hrect : ∀ r ∈ scores, r.length = m) (i : Nat)
    (hi : i < scores.length) :
    i ∈ identify_pareto scores ↔
      ∀ j, j < scores.length → j ≠ i →
        dominates (scores.getD j []) (scores.getD i []) = false := by
  rw [mem_identify_pareto]
  constructor
  · rintro ⟨_, h⟩ j hj _
    exact h j hj
  · intro h
    refine ⟨hi, fun j hj => ?_⟩
    by_cases hji : j = i
    · rw [hji]
      exact dominates_self _
    · exact h j hj hji

theorem C1_mem_iff_not_dominated_witness :
    0 ∈ identify_pareto [[(1 : Int), 2], [2, 1]] ↔
      ∀ j, j < [[(1 : Int), 2], [2, 1]].length → j ≠ 0 →
        dominates ([[(1 : Int), 2], [2, 1]].getD j []) ([[(1 : Int), 2], [2, 1]].getD 0 []) =
          false :=
  C1_mem_iff_not_dominated [[(1 : Int), 2], [2, 1]] 2 (by decide) (by decide) 0 (by decide)

/-- C2: the 30-candidate worked example yields exactly the indices
`[0, 1, 3, 4, 6, 7, 8, 9, 10]`; `[[1, 1]]` yields `[0]`; `[[1, 1], [2, 2]]`
yields `[1]`. -/
theorem C2_worked_examples :
    identify_pareto exampleScores = [0, 1, 3, 4, 6, 7, 8, 9, 10] ∧
      identify_pareto [[(1 : Int), 1]] = [0] ∧
      identify_pareto [[(1 : Int), 1], [2, 2]] = [1] :=
  ⟨by decide, by decide, by decide⟩

/-- C3: for every non-empty rectangular score table the returned front is
non-empty. -/
theorem C3_front_nonempty (scores : List (List Int)) (m : Nat) (hne : scores ≠ [])
    (hrect : ∀ r ∈ scores, r.length = m) : identify_pareto scores ≠ [] := by
  have hlen : 0 < scores.length := List.length_pos.mpr hne
  obtain ⟨i0, hi0mem, hmax⟩ := Finset.exists_max_image (Finset.range scores.length)
      (fun i => (scores.getD i []).sum) ⟨0, Finset.mem_range.mpr hlen⟩
  rw [Finset.mem_range] at hi0mem
  intro hempty
  have hmem : i0 ∈ identify_pareto scores := by
    rw [mem_identify_pareto]
    refine ⟨hi0mem, fun j hj => ?_⟩
    cases hd : dominates (scores.getD j []) (scores.getD i0 []) with
    | false => rfl
    | true =>
      exfalso
      have hlj : (scores.getD j []).length = m := hrect _ (getD_mem scores j hj)
      have hli : (scores.getD i0 []).length = m := hrect _ (getD_mem scores i0 hi0mem)
      have hsum := sum_lt_of_dominates (scores.getD j []) (scores.getD i0 [])
        (by omega) hd
      have hle := hmax j (Finset.mem_range.mpr hj)
      simp only at hle
      omega
  rw [hempty] at hmem
  exact List.not_mem_nil i0 hmem

theorem C3_front_nonempty_witness : identify_pareto [[(1 : Int), 1]] ≠ [] :=
  C3_front_nonempty [[(1 : Int), 1]] 2 (by decide) (by decide)

/-- C4 counterexample: in the table `[[5, 0], [5, 1]]` candidate 0 attains the
maximum of objective column 0 (both candidates score 5 there), yet the returned
front is `[1]`, so candidate 0 is not included. -/
theorem C4_counterexample :
    ([[(5 : Int), 0], [5, 1]].getD 0 []).getD 0 0 = 5 ∧
      ([[(5 : Int), 0], [5, 1]].getD 1 []).getD 0 0 = 5 ∧
      identify_pareto [[(5 : Int), 0], [5, 1]] = [1] ∧
      0 ∉ identify_pareto [[(5 : Int), 0], [5, 1]] :=
  ⟨by decide, by decide, by decide, by decide⟩

/-- C4 (amended): a candidate whose score in objective column `k` strictly
exceeds every other candidate's score in column `k` is included in the
returned front. -/
theorem C4_strict_column_max_on_front (scores : List (List Int)) (m i k : Nat)
    (hrect : ∀ r ∈ scores, r.length = m) (hk : k < m) (hi : i < scores.length)
    (hmax : ∀ j, j < scores.length → j ≠ i →
      (scores.getD j []).getD k 0 < (scores.getD i []).getD k 0) :
    i ∈ identify_pareto scores := by
  rw [mem_identify_pareto]
  refine ⟨hi, fun j hj => ?_⟩
  by_cases hji : j = i
  · rw [hji]
    exact dominates_self _
  · cases hd : dominates (scores.getD j []) (scores.getD i []) with
    | false => rfl
    | true =>
      exfalso
      obtain ⟨hall, _⟩ := (dominates_iff _ _).mp hd
      have hlj : (scores.getD j []).length = m := hrect _ (getD_mem scores j hj)
      have hli : (scores.getD i []).length = m := hrect _ (getD_mem scores i hi)
      have hle := hall k (by omega)
      have hlt := hmax j hj hji
      omega

theorem C4_strict_column_max_witness : 1 ∈ identify_pareto [[(5 : Int), 0], [6, 1]] :=
  C4_strict_column_max_on_front [[(5 : Int), 0], [6, 1]] 2 1 0 (by decide) (by decide)
    (by decide) (by decide)

/-- C5: candidates with identical score vectors are either both on or both off
the returned front; and when every row of a table equals one common vector the
whole index range is returned. -/
theorem C5_duplicate_rows (scores : List (List Int)) (i j : Nat) (hi : i < scores.length)
    (hj : j < scores.length) (heq : scores.getD i [] = scores.getD j []) :
    (i ∈ identify_pareto scores ↔ j ∈ identify_pareto scores) ∧
      ∀ t : List (List Int), ∀ v : List Int, (∀ r ∈ t, r = v) →
        identify_pareto t = List.range t.length := by
  constructor
  · rw [mem_identify_pareto, mem_identify_pareto, heq]
    constructor
    · rintro ⟨_, h⟩
      exact ⟨hj, h⟩
    · rintro ⟨_, h⟩
      exact ⟨hi, h⟩
  · intro t v hall
    rw [identify_pareto]
    refine List.filter_eq_self.mpr fun a ha => ?_
    rw [List.mem_range] at ha
    have hta : t.getD a [] = v := hall _ (getD_mem t a ha)
    rw [Bool.not_eq_true', dominatedBy_eq_any]
    refine List.any_eq_false.mpr fun s hs => ?_
    rw [hall s hs, hta]
    exact Bool.eq_false_iff.mp (dominates_self v)

theorem C5_duplicate_rows_witness :
    (0 ∈ identify_pareto [[(1 : Int), 1], [1, 1]] ↔
        1 ∈ identify_pareto [[(1 : Int), 1], [1, 1]]) ∧
      ∀ t : List (List Int), ∀ v : List Int, (∀ r ∈ t, r = v) →
        identify_pareto t = List.range t.length :=
  C5_duplicate_rows [[(1 : Int), 1], [1, 1]] 0 1 (by decide) (by decide) (by decide)

/-- C6: if table `t` is a permutation of `scores` through the index map `p`
(position `k` of `t` holds the row at position `p k` of `scores`), then
position `k` is on the front of `t` exactly when position `p k` is on the
front of `scores`. -/
theorem C6_permutation_invariance (scores t : List (List Int)) (p : Nat → Nat)
    (hlen : t.length = scores.length)
    (hp : ∀ k, k < scores.length → p k < scores.length)
    (hsurj : ∀ j, j < scores.length → ∃ k, k < scores.length ∧ p k = j)
    (ht : ∀ k, k < t.length → t.getD k [] = scores.getD (p k) [])
    (k : Nat) (hk : k < t.length) :
    k ∈ identify_pareto t ↔ p k ∈ identify_pareto scores := by
  have hk2 : k < scores.length := by omega
  have htk : t.getD k [] = scores.getD (p k) [] := ht k hk
  rw [mem_identify_pareto, mem_identify_pareto]
  constructor
  · rintro ⟨_, h⟩
    refine ⟨hp k hk2, fun j hj => ?_⟩
    obtain ⟨k2, hk2lt, hpk2⟩ := hsurj j hj
    have hres := h k2 (by omega)
    rw [ht k2 (by omega), hpk2, htk] at hres
    exact hres
  · rintro ⟨_, h⟩
    refine ⟨hk, fun j hj => ?_⟩
    rw [ht j hj, htk]
    exact h (p j) (hp j (by omega))

theorem C6_permutation_invariance_witness :
    0 ∈ identify_pareto [[(2 : Int), 1], [1, 2]] ↔
      1 - 0 ∈ identify_pareto [[(1 : Int), 2], [2, 1]] :=
  C6_permutation_invariance [[(1 : Int), 2], [2, 1]] [[(2 : Int), 1], [1, 2]]
    (fun k => 1 - k) (by decide) (by decide)
    (by
      intro j hj
      simp only [List.length_cons, List.length_nil] at hj
      refine ⟨1 - j, by simp only [List.length_cons, List.length_nil]; omega, ?_⟩
      show 1 - (1 - j) = j
      omega)
    (by decide) 0 (by decide)

/-- C7 counterexample: on the empty score table `identify_pareto` returns the
empty index list — it produces a result rather than failing with an
InvalidInput error. -/
theorem C7_counterexample : identify_pareto ([] : List (List Int)) = [] := rfl

/-- C7 (amended): on an empty score table `identify_pareto` returns an empty
front instead of raising an error. -/
theorem C7_empty_returns_empty_front (scores : List (List Int)) (h : scores = []) :
    identify_pareto scores = [] := by
  rw [h]
  rfl

theorem C7_empty_returns_empty_front_witness :
    identify_pareto ([] : List (List Int)) = [] :=
  C7_empty_returns_empty_front [] rfl

/-- C8: the dominance relation of the code is a strict partial order on score
vectors of a common length: irreflexive, asymmetric, and transitive. -/
theorem C8_strict_partial_order (a b c : List Int) (hab : a.length = b.length)
    (hbc : b.length = c.length) :
    dominates a a = false ∧
      (dominates a b = true → dominates b a = false) ∧
      (dominates a b = true → dominates b c = true → dominates a c = true) :=
  ⟨dominates_self a, dominates_asymm a b, dominates_trans a b c hab hbc⟩

theorem C8_strict_partial_order_witness :
    dominates [(3 : Int), 3] [(3 : Int), 3] = false ∧
      (dominates [(3 : Int), 3] [2, 2] = true → dominates [(2 : Int), 2] [3, 3] = false) ∧
      (dominates [(3 : Int), 3] [2, 2] = true → dominates [(2 : Int), 2] [1, 1] = true →
        dominates [(3 : Int), 3] [1, 1] = true) :=
  C8_strict_partial_order [3, 3] [2, 2] [1, 1] (by decide) (by decide)

/-- C9: the implemented loop — self-comparison included, short-circuit on the
first dominator — returns the same index list as the exhaustive reference
that checks all ordered pairs with `i ≠ j`. -/
theorem C9_loop_refines_reference (scores : List (List Int)) :
    identify_pareto scores = identify_pareto_ref scores := by
  rw [identify_pareto, identify_pareto_ref]
  refine List.filter_congr fun i hi => ?_
  rw [List.mem_range] at hi
  rw [Bool.eq_iff_iff]
  rw [Bool.not_eq_true', List.all_eq_true, dominatedBy_eq_false_iff]
  constructor
  · intro h j hj
    rw [List.mem_range] at hj
    rw [Bool.or_eq_true, Bool.not_eq_true', beq_iff_eq]
    exact Or.inr (h j hj)
  · intro h j hj
    have hor := h j (List.mem_range.mpr hj)
    rw [Bool.or_eq_true] at hor
    rcases hor with hji | hdom
    · rw [beq_iff_eq] at hji
      rw [hji]
      exact dominates_self _
    · rw [Bool.not_eq_true'] at hdom
      exact hdom

/-- C10: the returned index list is strictly increasing (hence duplicate-free)
and every returned index is a valid candidate index below the population
size. -/
theorem C10_output_sorted_and_bounded (scores : List (List Int)) :
    List.Pairwise (fun a b => a < b) (identify_pareto scores) ∧
      ∀ i ∈ identify_pareto scores, i < scores.length := by
  constructor
  · exact List.Pairwise.filter _ (List.pairwise_lt_range scores.length)
  · intro i hi
    exact ((mem_identify_pareto scores i).mp hi).1

end ParetoFront
